import Mathlib

/-!
Shallow embedding of the RT Discord-bot backend (sevenc-nanashi/rt-backend):
the language cog (`src/cogs/language.py`) and the componesy extension
(`src/rtlib/ext/componesy.py`).  Phrases are modelled as `List Char`
(Python strings iterated character by character), language codes and
callback names as `String`, dictionaries as association lists with
Python-dict update semantics, and raised Python exceptions as explicit
error values.
-/

/-- Python exceptions that the modelled code can raise. -/
inductive PyError where
  | valueError
  | keyError
  | attributeError
deriving DecidableEq, Repr

/-- Python dict assignment `m[k] = v`: replace the value in place if the key
is present, otherwise append the binding (insertion order preserved). -/
def dict_set {α β : Type} [DecidableEq α] (m : List (α × β)) (k : α) (v : β) :
    List (α × β) :=
  if m.any (fun p => p.1 = k) then
    m.map (fun p => if p.1 = k then (k, v) else p)
  else m ++ [(k, v)]

/-! ## Placeholder codec (`Language._extract_question`, lines 61-78) -/

/-- The four local variables of `Language._extract_question`:
`now, now_target, results, other = "", False, [], ""`. -/
structure ExtractState where
  now : List Char
  now_target : Bool
  results : List (List Char)
  other : List Char
deriving DecidableEq, Repr

/-- One iteration of the `for char in text` loop of
`Language._extract_question` (lines 65-76).  Note that the second `if`
tests the value of `now_target` already updated by the first `if`. -/
def Language.extract_step (parse_character : Char) (st : ExtractState)
    (char : Char) : ExtractState :=
  let st :=
    if char = parse_character then
      if st.now_target then
        { st with results := st.results ++ [st.now], now_target := false, now := [] }
      else
        { st with now_target := true }
    else st
  if st.now_target ∧ char ≠ parse_character then
    { st with now := st.now ++ [char] }
  else
    { st with other := st.other ++ [char] }

/-- `Language._extract_question(text, parse_character)` (lines 61-78):
returns `(results, other)` after running the character loop from the
initial state. -/
def Language.extract_question (text : List Char) (parse_character : Char) :
    List (List Char) × List Char :=
  let st := text.foldl (Language.extract_step parse_character) ⟨[], false, [], []⟩
  (st.results, st.other)

/-- Python `result.replace(String([pc, pc]), w, 1)`: replace the leftmost
occurrence of the two-character token `pc pc` with `w`; if there is no
occurrence, return the string unchanged. -/
def replaceOnce (pc : Char) (w : List Char) : List Char → List Char
  | [] => []
  | [a] => [a]
  | a :: b :: rest =>
    if a = pc ∧ b = pc then w ++ rest
    else a :: replaceOnce pc w (b :: rest)

/-- The reinsertion loop of `Language._get_reply` (lines 89-90):
`for word in results: result = result.replace("$$", word, 1)`. -/
def reinsert (pc : Char) (results : List (List Char)) (result : List Char) :
    List Char :=
  results.foldl (fun acc w => replaceOnce pc w acc) result

/-! ## Translation store and `Language._get_reply` (lines 80-92) -/

/-- The in-memory translation table `self.replies`: canonical phrase to
(language code to translated phrase). -/
abbrev Replies : Type := List (List Char × List (String × List Char))

/-- `Language._get_reply(text, lang)` (lines 80-92): extract the
placeholder segments, look the stripped phrase up as
`self.replies.get(text, {}).get(lang, text)`, then reinsert the segments
into the first `$$` tokens of the result, left to right. -/
def Language.get_reply (replies : Replies) (text : List Char) (lang : String) :
    List Char :=
  let er := Language.extract_question text '$'
  let result :=
    match replies.lookup er.2 with
    | none => er.2
    | some m => (m.lookup lang).getD er.2
  reinsert '$' er.1 result

/-! ## Preference cache (`Language.get`, `Language.update_cache`,
`Language.language`) -/

/-- The supported language codes, `Language.LANGUAGES = ("ja", "en")`
(line 31). -/
def Language.LANGUAGES : List String := ["ja", "en"]

/-- `Language.get(ugid)` (lines 170-182): `self.cache.get(ugid, "ja")`. -/
def Language.get (cache : List (Nat × String)) (ugid : Nat) : String :=
  (cache.lookup ugid).getD "ja"

/-- `Language.update_cache(cursor)` (lines 148-153): for every row of the
`language` table, `self.cache[row[0]] = row[1]`.  Rows are modelled as
(id, language) pairs, which are always truthy, so the `if row:` guard
always passes. -/
def Language.update_cache (cache : List (Nat × String))
    (rows : List (Nat × String)) : List (Nat × String) :=
  rows.foldl (fun c row => dict_set c row.1 row.2) cache

/-- The persistent state the `language` command touches: the `language`
database table (id, language rows, insertion-ordered) and the in-memory
cache. -/
structure PrefState where
  db : List (Nat × String)
  cache : List (Nat × String)
deriving DecidableEq, Repr

/-- The `language` command (lines 194-245), with the raise modelled as an
error value paired with the state at the moment of the raise: the
language-code check comes first (lines 222-224), then the database upsert
(`cursor.exists` / `update_data` / `insert_data`, lines 232-239), then
`update_cache` re-reads the whole table (line 240). -/
def Language.language (st : PrefState) (author_id : Nat) (language : String) :
    PrefState × Option PyError :=
  if language ∉ Language.LANGUAGES then
    (st, some PyError.valueError)
  else
    let db1 :=
      if st.db.any (fun r => r.1 = author_id) then
        st.db.map (fun r => if r.1 = author_id then (author_id, language) else r)
      else st.db ++ [(author_id, language)]
    let cache1 := Language.update_cache st.cache db1
    ({ db := db1, cache := cache1 }, none)

/-! ## Embeds and `Language._replace_embed` (lines 94-109) -/

/-- A field of a `discord.Embed`: a name and a value, both strings. -/
structure EmbedField where
  name : List Char
  value : List Char
deriving DecidableEq, Repr

/-- A `discord.Embed` as far as `Language._replace_embed` reads it:
`none` models `discord.Embed.Empty` (or an absent footer). -/
structure Embed where
  title : Option (List Char)
  description : Option (List Char)
  fields : List EmbedField
  footer_text : Option (List Char)
deriving DecidableEq, Repr

/-- `Language._replace_embed(embed, lang)` (lines 94-109): rewrite the
title and description when they are not `Embed.Empty`, every field's name
and value, and the footer text when a footer with text is present. -/
def Language.replace_embed (replies : Replies) (e : Embed) (lang : String) :
    Embed :=
  { title := e.title.map (fun t => Language.get_reply replies t lang)
    description := e.description.map (fun d => Language.get_reply replies d lang)
    fields := e.fields.map (fun f =>
      ⟨Language.get_reply replies f.name lang,
       Language.get_reply replies f.value lang⟩)
    footer_text := e.footer_text.map (fun t => Language.get_reply replies t lang) }

/-! ## `Language.get_text` (lines 111-130) and the send interceptor
(`Language._new_send`, lines 38-59) -/

/-- A value that `Language.get_text` accepts: a string or an embed. -/
inductive Sendable where
  | str (s : List Char)
  | embed (e : Embed)
deriving DecidableEq, Repr

/-- Python truthiness of a `Sendable`: the empty string is falsy, any
other string is truthy, and a `discord.Embed` object is always truthy. -/
def Sendable.truthy : Sendable → Bool
  | Sendable.str s => !s.isEmpty
  | Sendable.embed _ => true

/-- The state the language cog reads during an intercepted send:
`self.cache` and `self.replies`. -/
structure LangState where
  cache : List (Nat × String)
  replies : Replies
deriving DecidableEq

/-- The referenced message of a reply, as far as `_new_send` reads it:
`reference.author.id`. -/
structure Reference where
  author_id : Nat
deriving DecidableEq, Repr

/-- The keyword arguments of an intercepted send call.  `none` models an
absent key (for `reference`, also an explicit `None`). -/
structure LangKwargs where
  reference : Option Reference
  replace_language : Option Bool
  content : Option Sendable
  embed : Option Embed
  embeds : Option (List Embed)
deriving DecidableEq

/-- `Language.get_text(text, target)` (lines 111-130): resolve an integer
target through `self.get`, then dispatch on the type of `text` to
`_get_reply` or `_replace_embed`. -/
def Language.get_text (st : LangState) (text : Sendable)
    (target : Sum Nat String) : Sendable :=
  let target :=
    match target with
    | Sum.inl ugid => Language.get st.cache ugid
    | Sum.inr code => code
  match text with
  | Sendable.str s => Sendable.str (Language.get_reply st.replies s target)
  | Sendable.embed e => Sendable.embed (Language.replace_embed st.replies e target)

/-- Lines 41-47 of `Language._new_send`: `lang = "ja"`; if a reference is
present, `lang = self.get(reference.author.id)`; if
`kwargs.pop("replace_language", True)` is false, force `lang = "ja"`. -/
def Language.resolve_lang (cache : List (Nat × String))
    (reference : Option Reference) (replace_language : Option Bool) : String :=
  let lang :=
    match reference with
    | some r => Language.get cache r.author_id
    | none => "ja"
  if replace_language.getD true then lang else "ja"

/-- `Language._new_send(channel, *args, **kwargs)` (lines 38-59): resolve
the language, pop `replace_language`, rewrite a truthy `content`, keep
only the rewritten first positional argument, rewrite a present `embed`
(a `discord.Embed` is always truthy) and every entry of a present
`embeds` list, and return the new `(args, kwargs)`. -/
def Language.new_send (st : LangState) (args : List Sendable)
    (kwargs : LangKwargs) : List Sendable × LangKwargs :=
  let lang := Language.resolve_lang st.cache kwargs.reference kwargs.replace_language
  let kwargs1 := { kwargs with replace_language := none }
  let kwargs2 :=
    match kwargs1.content with
    | some c =>
      if c.truthy then { kwargs1 with content := some (Language.get_text st c (Sum.inr lang)) }
      else kwargs1
    | none => kwargs1
  let args1 :=
    match args with
    | [] => ([] : List Sendable)
    | a :: _ => [Language.get_text st a (Sum.inr lang)]
  let kwargs3 :=
    match kwargs2.embed with
    | some e => { kwargs2 with embed := some (Language.replace_embed st.replies e lang) }
    | none => kwargs2
  let kwargs4 :=
    match kwargs3.embeds with
    | some es =>
      { kwargs3 with embeds := some (es.map (fun e => Language.replace_embed st.replies e lang)) }
    | none => kwargs3
  (args1, kwargs4)

/-! ## Componesy (`src/rtlib/ext/componesy.py`) -/

/-- A Python callable as componesy sees it: its `__name__`, an opaque
identity for the behaviour it runs when awaited, and its `__self__`
attribute — `none` models a plain function (accessing `__self__` raises
`AttributeError`), `some none` a callable whose `__self__` is `None`, and
`some (some s)` a method bound to the object `s`. -/
structure PyFunc where
  name : String
  id : Nat
  self_attr : Option (Option Nat)
deriving DecidableEq, Repr

/-- A `componesy.View` object (lines 71-161) after `_make_items`:
`view_name`, the `(uiitem, callback)` pairs accumulated by `add_item`
(the `discord.ui` item factory is opaque, modelled by a number), and the
opaque construction `*args` / `**kwargs` captured by `__init__`. -/
structure ViewData where
  view_name : String
  items : List (Nat × PyFunc)
  args : List Nat
  kwargs : List (String × Nat)
deriving DecidableEq, Repr

/-- `View.remove_item(callback_name)` (lines 133-152).  The source runs
`i = -1`, then a `for`/`break` loop that increments `i` once per visited
item: after the loop `i` is the index of the first item whose callback
`__name__` matches, or `len(items) - 1` when nothing matched (still `-1`
only when the list is empty).  It then pops index `i` unless `i == -1`,
in which case it raises `KeyError`. -/
def View.remove_item (v : ViewData) (callback_name : String) :
    Except PyError ViewData :=
  let i : Int :=
    ((v.items.findIdx? (fun p => p.2.name == callback_name)).map
      (fun j => (j : Int))).getD ((v.items.length : Int) - 1)
  if i ≠ (-1 : Int) then Except.ok { v with items := v.items.eraseIdx i.toNat }
  else Except.error PyError.keyError

/-- An item attached to a synthesized view class: the opaque `discord.ui`
factory it was built with and the identity of the coroutine that actually
runs when the item's callback fires. -/
structure BoundItem where
  uiitem : Nat
  invokes : Nat
deriving DecidableEq, Repr

/-- A class synthesized by
`type(view_name, (discord.ui.View,), functions)` (line 208). -/
structure ViewClass where
  name : String
  functions : List (String × BoundItem)
deriving DecidableEq, Repr

/-- `self.views[view_name](*class_args, **class_kwargs)` (line 211): an
instance of a cached view class with fresh construction arguments. -/
structure ViewInstance where
  cls : ViewClass
  args : List Nat
  kwargs : List (String × Nat)
deriving DecidableEq, Repr

/-- The possible values of the `view` keyword argument seen by
`Componesy._new_send`: a `componesy.View` object (it has the
`_rtlib_view` attribute), a `make_view` dict, or an already-built
`discord.ui.View` instance. -/
inductive ViewArg where
  | rt (v : ViewData)
  | dict (v : ViewData)
  | built (i : ViewInstance)
deriving DecidableEq, Repr

/-- The keyword arguments of a send intercepted by componesy, narrowed to
the `view` key it reads. -/
structure ComponesyKwargs where
  view : Option ViewArg
deriving DecidableEq, Repr

/-- The componesy cog state: the `self.views` class cache. -/
structure ComponesyState where
  views : List (String × ViewClass)
deriving DecidableEq, Repr

/-- Lines 193-201 of `Componesy._new_send`: read `coro.__self__` — a
plain function has no such attribute, so the access raises
`AttributeError`; when it is `None` the coroutine is used directly; a
bound method is wrapped in `new_coro`, whose default argument
`_coro_original=coro` is evaluated at definition time, so the wrapped
callback always awaits exactly this iteration's `coro`.  The result is
the identity of the coroutine the finished callback invokes. -/
def Componesy.wrap_callback (coro : PyFunc) : Except PyError Nat :=
  match coro.self_attr with
  | none => Except.error PyError.attributeError
  | some none => Except.ok coro.id
  | some (some _) => Except.ok coro.id

/-- The `for uiitem, coro in items["items"]` loop of
`Componesy._new_send` (lines 192-204): build the `functions` dict,
setting `functions[coro.__name__] = uiitem(new_coro)` for each item. -/
def Componesy.build_functions (functions : List (String × BoundItem)) :
    List (Nat × PyFunc) → Except PyError (List (String × BoundItem))
  | [] => Except.ok functions
  | (uiitem, coro) :: rest => do
    let invoked ← Componesy.wrap_callback coro
    Componesy.build_functions (dict_set functions coro.name ⟨uiitem, invoked⟩) rest

/-- The body of `Componesy._new_send` once the `view` argument has been
recognised as a componesy view and normalised to its dict form
(lines 183-211): synthesize and cache the class when `view_name` is not
yet in `self.views`, then instantiate the cached class with the
descriptor's construction arguments. -/
def Componesy.handle_view (st : ComponesyState) (args : List Nat)
    (kwargs : ComponesyKwargs) (v : ViewData) :
    Except PyError (ComponesyState × List Nat × ComponesyKwargs) := do
  let st1 ←
    if (st.views.lookup v.view_name).isSome then Except.ok st
    else do
      let fs ← Componesy.build_functions [] v.items
      Except.ok { st with views := st.views ++ [(v.view_name, ⟨v.view_name, fs⟩)] }
  match st1.views.lookup v.view_name with
  | some cls =>
    Except.ok (st1, args,
      { kwargs with view := some (ViewArg.built ⟨cls, v.args, v.kwargs⟩) })
  | none => Except.error PyError.keyError

/-- `Componesy._new_send(channel, *args, **kwargs)` (lines 174-214):
when the `view` keyword argument is a componesy `View` (it has
`_rtlib_view`, so `_make_items()` is applied first) or a `make_view`
dict, run the view synthesis; anything else passes through untouched. -/
def Componesy.new_send (st : ComponesyState) (args : List Nat)
    (kwargs : ComponesyKwargs) :
    Except PyError (ComponesyState × List Nat × ComponesyKwargs) :=
  match kwargs.view with
  | some (ViewArg.rt v) => Componesy.handle_view st args kwargs v
  | some (ViewArg.dict v) => Componesy.handle_view st args kwargs v
  | _ => Except.ok (st, args, kwargs)

/-! ## Codec lemmas: alternating decomposition of a phrase -/

/-- The string contains no occurrence of the marker character. -/
def noChar (pc : Char) (s : List Char) : Prop := ∀ a ∈ s, a ≠ pc

/-- Every literal chunk and every placeholder segment of a decomposition
is free of the marker character. -/
def partsOk (pc : Char) (ps : List (List Char × List Char)) : Prop :=
  ∀ p ∈ ps, noChar pc p.1 ∧ noChar pc p.2

instance (pc : Char) (s : List Char) : Decidable (noChar pc s) := by
  unfold noChar; infer_instance

instance (pc : Char) (ps : List (List Char × List Char)) :
    Decidable (partsOk pc ps) := by
  unfold partsOk; infer_instance

/-- Rebuild a phrase from alternating (literal chunk, placeholder
segment) pairs and a trailing literal chunk, with the marker around each
segment: the general shape of a phrase with an even marker count. -/
def interleaveP (pc : Char) : List (List Char × List Char) → List Char → List Char
  | [], t => t
  | (c, s) :: rest, t => c ++ pc :: (s ++ pc :: interleaveP pc rest t)

/-- The literal text the codec produces for such a phrase: every segment
content removed, the two markers of each placeholder kept. -/
def interleaveOther (pc : Char) : List (List Char × List Char) → List Char → List Char
  | [], t => t
  | (c, _) :: rest, t => c ++ pc :: pc :: interleaveOther pc rest t

/-- The phrase with segment contents kept in place but all markers
removed. -/
def interleavePlain : List (List Char × List Char) → List Char → List Char
  | [], t => t
  | (c, s) :: rest, t => c ++ s ++ interleavePlain rest t

lemma extract_step_open (pc : Char) (st : ExtractState)
    (h : st.now_target = false) :
    Language.extract_step pc st pc =
      { st with now_target := true, other := st.other ++ [pc] } := by
  simp [Language.extract_step, h]

lemma extract_step_close (pc : Char) (st : ExtractState)
    (h : st.now_target = true) :
    Language.extract_step pc st pc =
      { st with results := st.results ++ [st.now], now_target := false,
                now := [], other := st.other ++ [pc] } := by
  simp [Language.extract_step, h]

lemma extract_step_inside (pc c : Char) (st : ExtractState)
    (h : st.now_target = true) (hc : c ≠ pc) :
    Language.extract_step pc st c = { st with now := st.now ++ [c] } := by
  simp [Language.extract_step, h, hc]

lemma extract_step_outside (pc c : Char) (st : ExtractState)
    (h : st.now_target = false) (hc : c ≠ pc) :
    Language.extract_step pc st c = { st with other := st.other ++ [c] } := by
  simp [Language.extract_step, h, hc]

lemma foldl_extract_outside (pc : Char) :
    ∀ (s : List Char), noChar pc s → ∀ now res oth,
      s.foldl (Language.extract_step pc) ⟨now, false, res, oth⟩ =
        ⟨now, false, res, oth ++ s⟩ := by
  intro s
  induction s with
  | nil => intro _ now res oth; simp
  | cons a s ih =>
    intro h now res oth
    have ha : a ≠ pc := h a (List.mem_cons_self a s)
    have hs : noChar pc s := fun x hx => h x (List.mem_cons_of_mem a hx)
    rw [List.foldl_cons, extract_step_outside pc a _ rfl ha]
    simpa using ih hs now res (oth ++ [a])

lemma foldl_extract_inside (pc : Char) :
    ∀ (s : List Char), noChar pc s → ∀ now res oth,
      s.foldl (Language.extract_step pc) ⟨now, true, res, oth⟩ =
        ⟨now ++ s, true, res, oth⟩ := by
  intro s
  induction s with
  | nil => intro _ now res oth; simp
  | cons a s ih =>
    intro h now res oth
    have ha : a ≠ pc := h a (List.mem_cons_self a s)
    have hs : noChar pc s := fun x hx => h x (List.mem_cons_of_mem a hx)
    rw [List.foldl_cons, extract_step_inside pc a _ rfl ha]
    simpa using ih hs (now ++ [a]) res oth

lemma foldl_extract_interleave (pc : Char) :
    ∀ (ps : List (List Char × List Char)) (t : List Char), partsOk pc ps →
      noChar pc t → ∀ res oth,
      (interleaveP pc ps t).foldl (Language.extract_step pc) ⟨[], false, res, oth⟩ =
        ⟨[], false, res ++ ps.map Prod.snd, oth ++ interleaveOther pc ps t⟩ := by
  intro ps
  induction ps with
  | nil =>
    intro t _ ht res oth
    rw [interleaveP, interleaveOther, foldl_extract_outside pc t ht]
    simp
  | cons p ps ih =>
    intro t hps ht res oth
    obtain ⟨c, s⟩ := p
    have hc : noChar pc c := (hps (c, s) (List.mem_cons_self _ _)).1
    have hs : noChar pc s := (hps (c, s) (List.mem_cons_self _ _)).2
    have hps' : partsOk pc ps := fun x hx => hps x (List.mem_cons_of_mem _ hx)
    rw [interleaveP, List.foldl_append, foldl_extract_outside pc c hc,
      List.foldl_cons, extract_step_open pc _ rfl]
    rw [List.foldl_append, foldl_extract_inside pc s hs,
      List.foldl_cons, extract_step_close pc _ rfl]
    rw [ih t hps' ht]
    simp [interleaveOther]

/-- A phrase with no marker characters extracts to no segments and
itself. -/
lemma extract_question_noChar (pc : Char) (p : List Char) (h : noChar pc p) :
    Language.extract_question p pc = ([], p) := by
  rw [Language.extract_question, foldl_extract_outside pc p h]
  simp

/-- Extraction on the alternating decomposition: the segments come out in
order and the literal text keeps a double marker at each placeholder. -/
lemma extract_question_interleave (pc : Char)
    (ps : List (List Char × List Char)) (t : List Char)
    (hps : partsOk pc ps) (ht : noChar pc t) :
    Language.extract_question (interleaveP pc ps t) pc =
      (ps.map Prod.snd, interleaveOther pc ps t) := by
  rw [Language.extract_question, foldl_extract_interleave pc ps t hps ht]
  simp

/-! ## Reinsertion lemmas -/

lemma replaceOnce_cons (pc : Char) (w : List Char) (a : Char) (s : List Char)
    (h : a ≠ pc) : replaceOnce pc w (a :: s) = a :: replaceOnce pc w s := by
  cases s with
  | nil => rfl
  | cons b s => simp [replaceOnce, h]

lemma replaceOnce_pair (pc : Char) (w : List Char) (s : List Char) :
    replaceOnce pc w (pc :: pc :: s) = w ++ s := by
  simp [replaceOnce]

lemma replaceOnce_append (pc : Char) (w : List Char) :
    ∀ (c : List Char), noChar pc c → ∀ s,
      replaceOnce pc w (c ++ s) = c ++ replaceOnce pc w s := by
  intro c
  induction c with
  | nil => intro _ s; rfl
  | cons a c ih =>
    intro h s
    have ha : a ≠ pc := h a (List.mem_cons_self a c)
    have hc : noChar pc c := fun x hx => h x (List.mem_cons_of_mem a hx)
    rw [List.cons_append, replaceOnce_cons pc w a _ ha, ih hc s,
      List.cons_append]

lemma reinsert_cons (pc : Char) (w : List Char) (segs : List (List Char))
    (r : List Char) :
    reinsert pc (w :: segs) r = reinsert pc segs (replaceOnce pc w r) := rfl

lemma reinsert_append (pc : Char) :
    ∀ (segs : List (List Char)) (c : List Char), noChar pc c → ∀ s,
      reinsert pc segs (c ++ s) = c ++ reinsert pc segs s := by
  intro segs
  induction segs with
  | nil => intro c _ s; rfl
  | cons w segs ih =>
    intro c hc s
    rw [reinsert_cons, replaceOnce_append pc w c hc s, ih c hc, reinsert_cons]

/-- Reinserting the extracted segments into the codec's literal text
fills each double-marker token with its own segment, in order. -/
lemma reinsert_interleave (pc : Char) :
    ∀ (ps : List (List Char × List Char)) (t : List Char), partsOk pc ps →
      reinsert pc (ps.map Prod.snd) (interleaveOther pc ps t) =
        interleavePlain ps t := by
  intro ps
  induction ps with
  | nil => intro t _; rfl
  | cons p ps ih =>
    intro t hps
    obtain ⟨c, s⟩ := p
    have hc : noChar pc c := (hps (c, s) (List.mem_cons_self _ _)).1
    have hs : noChar pc s := (hps (c, s) (List.mem_cons_self _ _)).2
    have hps' : partsOk pc ps := fun x hx => hps x (List.mem_cons_of_mem _ hx)
    rw [interleaveOther, List.map_cons, reinsert_cons,
      replaceOnce_append pc s c hc, replaceOnce_pair,
      reinsert_append pc _ c hc]
    have hcs : noChar pc s := hs
    rw [reinsert_append pc _ s hcs, ih t hps', interleavePlain]
    simp

/-- The plain interleaving is the original phrase with all marker
characters filtered out. -/
lemma interleavePlain_eq_filter (pc : Char) :
    ∀ (ps : List (List Char × List Char)) (t : List Char), partsOk pc ps →
      noChar pc t →
      interleavePlain ps t = (interleaveP pc ps t).filter (fun a => a ≠ pc) := by
  intro ps
  induction ps with
  | nil =>
    intro t _ ht
    rw [interleavePlain, interleaveP]
    exact (List.filter_eq_self.mpr (fun a ha => by
      simpa using ht a ha)).symm
  | cons p ps ih =>
    intro t hps ht
    obtain ⟨c, s⟩ := p
    have hc : noChar pc c := (hps (c, s) (List.mem_cons_self _ _)).1
    have hs : noChar pc s := (hps (c, s) (List.mem_cons_self _ _)).2
    have hps' : partsOk pc ps := fun x hx => hps x (List.mem_cons_of_mem _ hx)
    rw [interleavePlain, interleaveP, ih t hps' ht]
    have hcf : c.filter (fun a => a ≠ pc) = c :=
      List.filter_eq_self.mpr (fun a ha => by simpa using hc a ha)
    have hsf : s.filter (fun a => a ≠ pc) = s :=
      List.filter_eq_self.mpr (fun a ha => by simpa using hs a ha)
    simp only [ne_eq, decide_not] at hcf hsf ⊢
    simp [List.filter_append, hcf, hsf]

/-! ## Decomposition of a phrase with an even marker count -/

/-- Split a string at the first occurrence of the marker character:
returns the marker-free part before it and, when the marker occurs, the
remainder after it. -/
def splitAtChar (pc : Char) : List Char → List Char × Option (List Char)
  | [] => ([], none)
  | a :: rest =>
    if a = pc then ([], some rest)
    else
      let q := splitAtChar pc rest
      (a :: q.1, q.2)

lemma splitAtChar_none (pc : Char) :
    ∀ (p : List Char), (splitAtChar pc p).2 = none →
      p = (splitAtChar pc p).1 ∧ noChar pc (splitAtChar pc p).1 := by
  intro p
  induction p with
  | nil => intro _; exact ⟨rfl, fun a ha => absurd ha (List.not_mem_nil a)⟩
  | cons a rest ih =>
    intro h
    by_cases ha : a = pc
    · rw [splitAtChar] at h; simp [ha] at h
    · rw [splitAtChar] at h ⊢
      simp only [ha, if_false] at h ⊢
      obtain ⟨h1, h2⟩ := ih h
      refine ⟨by rw [← h1], fun x hx => ?_⟩
      rcases List.mem_cons.mp hx with hx | hx
      · rw [hx]; exact ha
      · exact h2 x hx

lemma splitAtChar_some (pc : Char) :
    ∀ (p r : List Char), (splitAtChar pc p).2 = some r →
      p = (splitAtChar pc p).1 ++ pc :: r ∧ noChar pc (splitAtChar pc p).1 ∧
        r.length < p.length := by
  intro p
  induction p with
  | nil => intro r h; rw [splitAtChar] at h; cases h
  | cons a rest ih =>
    intro r h
    by_cases ha : a = pc
    · rw [splitAtChar] at h ⊢
      simp only [ha, if_true] at h ⊢
      cases h
      refine ⟨by simp, fun x hx => absurd hx (List.not_mem_nil x), by simp⟩
    · rw [splitAtChar] at h ⊢
      simp only [ha, if_false] at h ⊢
      obtain ⟨h1, h2, h3⟩ := ih r h
      refine ⟨by rw [List.cons_append, ← h1], fun x hx => ?_, ?_⟩
      · rcases List.mem_cons.mp hx with hx | hx
        · rw [hx]; exact ha
        · exact h2 x hx
      · simpa using Nat.lt_succ_of_lt h3

lemma count_of_noChar (pc : Char) (c : List Char) (h : noChar pc c) :
    c.count pc = 0 :=
  List.count_eq_zero.mpr (fun hm => (h pc hm) rfl)

/-- Every phrase with an even number of marker characters is an
alternating interleaving of marker-free chunks and segments. -/
lemma even_marker_decomposition (pc : Char) :
    ∀ (n : Nat) (p : List Char), p.length ≤ n → Even (p.count pc) →
      ∃ ps t, partsOk pc ps ∧ noChar pc t ∧ p = interleaveP pc ps t := by
  intro n
  induction n with
  | zero =>
    intro p hp _
    have : p = [] := List.length_eq_zero.mp (Nat.le_zero.mp hp)
    exact ⟨[], [], fun x hx => absurd hx (List.not_mem_nil x),
      fun a ha => absurd ha (List.not_mem_nil a), by rw [this]; rfl⟩
  | succ n ih =>
    intro p hp heven
    cases h1 : (splitAtChar pc p).2 with
    | none =>
      obtain ⟨hp1, hp2⟩ := splitAtChar_none pc p h1
      exact ⟨[], p, fun x hx => absurd hx (List.not_mem_nil x),
        by rw [hp1]; exact hp2, rfl⟩
    | some r =>
      obtain ⟨hp1, hp2, hp3⟩ := splitAtChar_some pc p r h1
      have hcount : p.count pc = r.count pc + 1 := by
        rw [hp1, List.count_append, List.count_cons_self,
          count_of_noChar pc _ hp2]
        omega
      cases h2 : (splitAtChar pc r).2 with
      | none =>
        obtain ⟨hr1, hr2⟩ := splitAtChar_none pc r h2
        have : r.count pc = 0 := by
          rw [hr1]; exact count_of_noChar pc _ hr2
        rw [hcount, this] at heven
        exact absurd heven (by decide)
      | some p2 =>
        obtain ⟨hr1, hr2, hr3⟩ := splitAtChar_some pc r p2 h2
        have hcount2 : r.count pc = p2.count pc + 1 := by
          rw [hr1, List.count_append, List.count_cons_self,
            count_of_noChar pc _ hr2]
          omega
        have heven2 : Even (p2.count pc) := by
          obtain ⟨k, hk⟩ := heven
          rw [hcount, hcount2] at hk
          exact ⟨k - 1, by omega⟩
        have hlen : p2.length ≤ n := by
          have := hp1 ▸ hp
          have hrp : r.length < p.length := hp3
          omega
        obtain ⟨ps, t, hps, ht, hpt⟩ := ih p2 hlen heven2
        refine ⟨((splitAtChar pc p).1, (splitAtChar pc r).1) :: ps, t,
          fun x hx => ?_, ht, ?_⟩
        · rcases List.mem_cons.mp hx with hx | hx
          · rw [hx]; exact ⟨hp2, hr2⟩
          · exact hps x hx
        · rw [interleaveP, ← hpt, ← hr1, ← hp1]

/-- The translation lookup misses: the canonical phrase is absent from
the table, or present without the requested language code. -/
def TranslationMiss (replies : Replies) (text : List Char) (lang : String) :
    Prop :=
  replies.lookup text = none ∨
    ∃ m, replies.lookup text = some m ∧ m.lookup lang = none

lemma get_reply_of_miss (replies : Replies) (p : List Char) (lang : String)
    (h : TranslationMiss replies (Language.extract_question p '$').2 lang) :
    Language.get_reply replies p lang =
      reinsert '$' (Language.extract_question p '$').1
        (Language.extract_question p '$').2 := by
  rw [Language.get_reply]
  rcases h with h | ⟨m, hm, hl⟩
  · rw [h]
  · rw [hm]
    simp [hl]

/-! ## Claim theorems -/

/-- C1 counterexample: on the phrase `a$b$c` the extraction returns the
segment list `["b"]` paired with the literal text `a$$c`, in which the
two marker characters are still present — the literal text is not the
claimed `ac` with the markers stripped out. -/
theorem C1_markers_not_stripped :
    Language.extract_question ("a$b$c".data) '$' = (["b".data], "a$$c".data) ∧
      (Language.extract_question ("a$b$c".data) '$').2 ≠ "ac".data ∧
      '$' ∈ (Language.extract_question ("a$b$c".data) '$').2 := by
  refine ⟨by decide, by decide, by decide⟩

/-- C1 (amended): for every input phrase the extraction returns the
ordered list of marker-delimited segments paired with the literal text in
which each placeholder's content has been removed but the two marker
characters of each placeholder are retained (as a double-marker token);
for a phrase with no marker characters the result is the empty segment
list paired with the phrase unchanged. -/
theorem C1_extract_contract :
    (∀ p : List Char, noChar '$' p →
      Language.extract_question p '$' = ([], p)) ∧
    (∀ (ps : List (List Char × List Char)) (t : List Char),
      partsOk '$' ps → noChar '$' t →
      Language.extract_question (interleaveP '$' ps t) '$' =
        (ps.map Prod.snd, interleaveOther '$' ps t)) :=
  ⟨fun p hp => extract_question_noChar '$' p hp,
   fun ps t hps ht => extract_question_interleave '$' ps t hps ht⟩

/-- C1 witness: the contract evaluated on the phrase `xy` (no markers)
and on the decomposition of `a$b$c`. -/
theorem C1_extract_contract_witness :
    Language.extract_question ("xy".data) '$' = ([], "xy".data) ∧
    Language.extract_question (interleaveP '$' [("a".data, "b".data)] ("c".data)) '$' =
      (["b".data], interleaveOther '$' [("a".data, "b".data)] ("c".data)) :=
  ⟨C1_extract_contract.1 ("xy".data) (by decide),
   C1_extract_contract.2 [("a".data, "b".data)] ("c".data) (by decide) (by decide)⟩

/-- C2: evaluation at the failing input.  On a view with the single item
whose callback is named `a`, removing the unregistered callback name `b`
does not raise `KeyError`: the loop leaves `i = 0` (= `len(items) - 1`),
so the last item is popped and the call returns normally with the item
list changed. -/
theorem C2_remove_item_pops_last_instead_of_raising :
    View.remove_item ⟨"V", [(0, ⟨"a", 5, some (some 1)⟩)], [], []⟩ "b" =
      Except.ok ⟨"V", [], [], []⟩ := rfl

/-- C3: evaluation at the failing input.  Building a view whose single
item carries a plain (free) coroutine function — exactly the usage shown
in the componesy module docstring — fails with `AttributeError`, because
`Componesy._new_send` reads `coro.__self__` and a plain function has no
`__self__` attribute. -/
theorem C3_free_function_build_fails :
    Componesy.new_send ⟨[]⟩ []
      ⟨some (ViewArg.rt ⟨"TestView",
        [(0, ⟨"test_interaction", 1, none⟩)], [], []⟩)⟩ =
      Except.error PyError.attributeError := rfl

/-- C4 counterexample: with an empty translation table every canonical
phrase is absent, yet the phrase `a$b$c` does not pass through verbatim:
the interceptor returns `abc`, the original with its marker characters
removed. -/
theorem C4_markers_lost_on_fallback :
    Language.get_reply [] ("a$b$c".data) "en" = "abc".data ∧
      Language.get_reply [] ("a$b$c".data) "en" ≠ "a$b$c".data := by
  refine ⟨by decide, by decide⟩

/-- C4 (amended): when the canonical phrase (or its language code) is
absent from the translation table, a phrase with no marker characters
passes through verbatim, and a phrase with an even number of marker
characters comes back as the original with the marker characters removed
(the placeholder contents are reinserted without their delimiters). -/
theorem C4_lookup_fallback :
    (∀ (replies : Replies) (p : List Char) (lang : String), noChar '$' p →
      TranslationMiss replies p lang →
      Language.get_reply replies p lang = p) ∧
    (∀ (replies : Replies) (p : List Char) (lang : String),
      Even (p.count '$') →
      TranslationMiss replies (Language.extract_question p '$').2 lang →
      Language.get_reply replies p lang = p.filter (fun a => a ≠ '$')) := by
  constructor
  · intro replies p lang hp hmiss
    have he : Language.extract_question p '$' = ([], p) :=
      extract_question_noChar '$' p hp
    rw [get_reply_of_miss replies p lang (by rw [he]; exact hmiss), he]
    rfl
  · intro replies p lang heven hmiss
    obtain ⟨ps, t, hps, ht, rfl⟩ :=
      even_marker_decomposition '$' _ p le_rfl heven
    rw [get_reply_of_miss _ _ _ hmiss,
      extract_question_interleave '$' ps t hps ht]
    exact (reinsert_interleave '$' ps t hps).trans
      (interleavePlain_eq_filter '$' ps t hps ht)

/-- C4 witness: the fallback evaluated with an empty table on the
marker-free phrase `xy` and on the phrase `a$b$c`. -/
theorem C4_lookup_fallback_witness :
    Language.get_reply [] ("xy".data) "en" = "xy".data ∧
    Language.get_reply [] ("a$b$c".data) "en" =
      ("a$b$c".data).filter (fun a => a ≠ '$') :=
  ⟨C4_lookup_fallback.1 [] ("xy".data) "en" (by decide) (Or.inl rfl),
   C4_lookup_fallback.2 [] ("a$b$c".data) "en" (by decide) (Or.inl rfl)⟩

/-- C5 counterexample: the phrase `a$b$c` contains the marker character
an even number of times, yet reinserting the extracted segments into the
extraction's literal output yields `abc`, not the original phrase. -/
theorem C5_round_trip_not_exact :
    Even (("a$b$c".data).count '$') ∧
      reinsert '$' (Language.extract_question ("a$b$c".data) '$').1
        (Language.extract_question ("a$b$c".data) '$').2 ≠ "a$b$c".data := by
  refine ⟨by decide, by decide⟩

/-- C5 (amended): for every phrase with an even number of marker
characters, reinserting the extracted segments (left to right, one
substitution per double-marker token) into the extraction's literal
output reproduces the phrase with every marker character removed. -/
theorem C5_round_trip :
    ∀ p : List Char, Even (p.count '$') →
      reinsert '$' (Language.extract_question p '$').1
        (Language.extract_question p '$').2 =
        p.filter (fun a => a ≠ '$') := by
  intro p heven
  obtain ⟨ps, t, hps, ht, rfl⟩ :=
    even_marker_decomposition '$' _ p le_rfl heven
  rw [extract_question_interleave '$' ps t hps ht]
  exact (reinsert_interleave '$' ps t hps).trans
    (interleavePlain_eq_filter '$' ps t hps ht)

/-- C5 witness: the round trip evaluated on the phrase `a$b$c`. -/
theorem C5_round_trip_witness :
    reinsert '$' (Language.extract_question ("a$b$c".data) '$').1
      (Language.extract_question ("a$b$c".data) '$').2 =
      ("a$b$c".data).filter (fun a => a ≠ '$') :=
  C5_round_trip ("a$b$c".data) (by decide)

/-- The state of the C6 scenario: the translation table maps `Ok` to
`{"en": "OK!"}` and subject 42's cached preference is `en`. -/
def c6_state : LangState :=
  ⟨[(42, "en")], [("Ok".data, [("en", "OK!".data)])]⟩

/-- The keyword arguments of the C6 scenario: a reply referencing a
message authored by 42, with `content="Ok"`. -/
def c6_kwargs : LangKwargs :=
  ⟨some ⟨42⟩, none, some (Sendable.str "Ok".data), none, none⟩

/-- C6: the intercepted send's target language is `ja` by default, is the
referenced message author's stored preference when the call carries a
reference, and is forced back to `ja` whenever the caller passes
`replace_language=False`; in the concrete scenario (table `Ok` to
`{"en": "OK!"}`, subject 42 prefers `en`, reply referencing a message
authored by 42 with `content="Ok"`) the rewritten content is `OK!`. -/
theorem C6_send_language_resolution :
    (∀ cache : List (Nat × String),
      Language.resolve_lang cache none none = "ja") ∧
    (∀ (cache : List (Nat × String)) (r : Reference),
      Language.resolve_lang cache (some r) none =
        Language.get cache r.author_id) ∧
    (∀ (cache : List (Nat × String)) (r : Option Reference),
      Language.resolve_lang cache r (some false) = "ja") ∧
    (Language.new_send c6_state [] c6_kwargs).2.content =
      some (Sendable.str "OK!".data) :=
  ⟨fun _ => rfl, fun _ _ => rfl, fun _ _ => rfl, by decide⟩

/-- C7: setting a language code outside the supported set fails with
`ValueError` before any database write or cache refresh: the returned
state is the input state unchanged, so every subject's preference reads
the same as before the call. -/
theorem C7_invalid_code_rejected :
    ∀ (st : PrefState) (author_id : Nat) (code : String),
      code ∉ Language.LANGUAGES →
      Language.language st author_id code = (st, some PyError.valueError) ∧
      ∀ x, Language.get (Language.language st author_id code).1.cache x =
        Language.get st.cache x := by
  intro st a code h
  refine ⟨by simp [Language.language, h], fun x => by simp [Language.language, h]⟩

/-- C7 witness: the rejection evaluated on the unsupported code `fr` with
subject 3's preference left readable and unchanged. -/
theorem C7_invalid_code_rejected_witness :
    Language.language ⟨[], [(3, "en")]⟩ 1 "fr" =
      (⟨[], [(3, "en")]⟩, some PyError.valueError) ∧
    Language.get (Language.language ⟨[], [(3, "en")]⟩ 1 "fr").1.cache 3 =
      Language.get [(3, "en")] 3 :=
  ⟨(C7_invalid_code_rejected ⟨[], [(3, "en")]⟩ 1 "fr" (by decide)).1,
   (C7_invalid_code_rejected ⟨[], [(3, "en")]⟩ 1 "fr" (by decide)).2 3⟩

/-- C8: the view-class cache is write-once per view name.  When a class
is already cached under the descriptor's `view_name`, the intercepted
send leaves the cache unchanged and instantiates the originally cached
class with the new descriptor's construction arguments — the new
descriptor's items are ignored entirely (never inspected, never built). -/
theorem C8_view_cache_write_once :
    ∀ (st : ComponesyState) (args : List Nat) (kwargs : ComponesyKwargs)
      (v : ViewData) (K : ViewClass),
      st.views.lookup v.view_name = some K →
      kwargs.view = some (ViewArg.rt v) →
      Componesy.new_send st args kwargs =
        Except.ok (st, args,
          { kwargs with view := some (ViewArg.built ⟨K, v.args, v.kwargs⟩) }) := by
  intro st args kwargs v K hK hview
  cases kwargs with
  | mk view =>
    cases hview
    simp [Componesy.new_send, Componesy.handle_view, hK, bind, Except.bind]

/-- C8 witness: a second descriptor named `X` with a different item set
is built against a cache already holding a class for `X`: the cached
class is instantiated and the cache is unchanged. -/
theorem C8_view_cache_write_once_witness :
    Componesy.new_send ⟨[("X", ⟨"X", [("cb", ⟨0, 7⟩)]⟩)]⟩ []
      ⟨some (ViewArg.rt ⟨"X", [(1, ⟨"other_cb", 9, some (some 2)⟩)], [], []⟩)⟩ =
      Except.ok (⟨[("X", ⟨"X", [("cb", ⟨0, 7⟩)]⟩)]⟩, [],
        ⟨some (ViewArg.built ⟨⟨"X", [("cb", ⟨0, 7⟩)]⟩, [], []⟩)⟩) :=
  C8_view_cache_write_once ⟨[("X", ⟨"X", [("cb", ⟨0, 7⟩)]⟩)]⟩ []
    ⟨some (ViewArg.rt ⟨"X", [(1, ⟨"other_cb", 9, some (some 2)⟩)], [], []⟩)⟩
    ⟨"X", [(1, ⟨"other_cb", 9, some (some 2)⟩)], [], []⟩
    ⟨"X", [("cb", ⟨0, 7⟩)]⟩ (by decide) rfl

/-- C9: reading the preference of a subject with no recorded entry —
including from the empty cache that precedes any set — returns the
primary language code `ja` (the read is total: it never raises). -/
theorem C9_get_defaults_to_ja :
    (∀ x : Nat, Language.get [] x = "ja") ∧
    (∀ (cache : List (Nat × String)) (x : Nat), cache.lookup x = none →
      Language.get cache x = "ja") :=
  ⟨fun _ => rfl, fun cache x h => by rw [Language.get, h]; rfl⟩

/-- C9 witness: subject 2 is absent from the cache `[(1, en)]` and reads
as `ja`. -/
theorem C9_get_defaults_to_ja_witness :
    List.lookup 2 [(1, "en")] = none ∧ Language.get [(1, "en")] 2 = "ja" :=
  ⟨by decide, C9_get_defaults_to_ja.2 [(1, "en")] 2 (by decide)⟩

/-- C10: an intercepted send called with two or more positional arguments
forwards a positional tuple of length exactly one — the rewritten first
argument — and silently drops every other positional argument. -/
theorem C10_extra_positional_args_dropped :
    ∀ (st : LangState) (a b : Sendable) (rest : List Sendable)
      (kwargs : LangKwargs),
      (Language.new_send st (a :: b :: rest) kwargs).1 =
        [Language.get_text st a (Sum.inr (Language.resolve_lang st.cache
          kwargs.reference kwargs.replace_language))] ∧
      (Language.new_send st (a :: b :: rest) kwargs).1.length = 1 :=
  fun _ _ _ _ _ => ⟨rfl, rfl⟩
